import Mathlib

/-!
Verification of the `vector_operations` Rust crate (`src/lib.rs`).

The crate exposes four pure functions over fixed-length arrays:

* `sub(vec_a, vec_b)`  — element-wise difference, built as
  `iter().zip(..).map(|(a,b)| *a - *b).collect::<Vec<T>>().try_into().unwrap()`;
* `add(vec_a, vec_b)`  — element-wise sum, same pipeline with `+`;
* `scale(vec, scalar)` — `iter().map(|a| *a * *scalar).collect().try_into().unwrap()`;
* `matrix_vec_multiply(matrix, vector)` — nested loops
  `for i in 0..M { for j in 0..N { result[i] += matrix[j][i] * vector[j] } }`
  starting from `result = [T::default(); M]`.

Embedding conventions:

* A Rust array `[T; F]` becomes a `List α` together with the hypothesis
  `length = F`; the const generic parameters `F`, `M`, `N` are explicit `ℕ`
  arguments.
* A run that can panic returns an `Option`: `none` models a panic
  (a failed `unwrap`, or an out-of-bounds index, which in Rust aborts with an
  index-out-of-bounds panic).  Checked indexing `xs[i]` is `List.get? i`.
* The element type `T` is a type `α` carrying exactly the operations the Rust
  trait bounds require; algebraic theorems instantiate stronger structure
  (`CommRing α`) as the spec's numeric reading does.
-/

namespace VectorOperations

variable {α : Type}

/-- Model of `Vec<T>::try_into() : Result<[T; F], _>` followed by `unwrap()`:
the conversion succeeds exactly when the collected vector has length `F`,
otherwise the program panics (`none`). -/
def tryInto (F : ℕ) (l : List α) : Option (List α) :=
  if l.length = F then some l else none

/-- The vector computed inside `sub` before `try_into`: zip the two inputs and
map the pair-wise difference (`.map(|(a, b)| *a - *b)`). -/
def subFn [Sub α] (a b : List α) : List α :=
  (a.zip b).map fun p => p.1 - p.2

/-- Rust `sub<const F, T>(vec_a: &[T; F], vec_b: &[T; F]) -> [T; F]`:
the zipped difference collected and converted back to a length-`F` array. -/
def sub [Sub α] (F : ℕ) (a b : List α) : Option (List α) :=
  tryInto F (subFn a b)

/-- The vector computed inside `add` before `try_into`. -/
def addFn [Add α] (a b : List α) : List α :=
  (a.zip b).map fun p => p.1 + p.2

/-- Rust `add<const F, T>(vec_a: &[T; F], vec_b: &[T; F]) -> [T; F]`. -/
def add [Add α] (F : ℕ) (a b : List α) : Option (List α) :=
  tryInto F (addFn a b)

/-- The vector computed inside `scale` before `try_into`
(`.map(|a| *a * *scalar)`). -/
def scaleFn [Mul α] (v : List α) (k : α) : List α :=
  v.map fun a => a * k

/-- Rust `scale<const F, T>(vec: &[T; F], scalar: &T) -> [T; F]`. -/
def scale [Mul α] (F : ℕ) (v : List α) (k : α) : Option (List α) :=
  tryInto F (scaleFn v k)

/-- The inner loop `for j in js { result[i] += matrix[j][i] * vector[j] }` of
`matrix_vec_multiply`, with every index checked as Rust checks it: a failing
bound is a panic (`none`).  The list `js` is the remaining loop range. -/
def mvmInner [Mul α] [Add α] (matrix : List (List α)) (vec : List α) (i : ℕ) :
    List ℕ → List α → Option (List α)
  | [], res => some res
  | j :: js, res =>
      (matrix.get? j).bind fun row =>
        (row.get? i).bind fun x =>
          (vec.get? j).bind fun v =>
            (res.get? i).bind fun r =>
              mvmInner matrix vec i js (res.set i (r + x * v))

/-- The outer loop `for i in is { for j in 0..N { ... } }` of
`matrix_vec_multiply`. -/
def mvmOuter [Mul α] [Add α] (N : ℕ) (matrix : List (List α)) (vec : List α) :
    List ℕ → List α → Option (List α)
  | [], res => some res
  | i :: is, res =>
      (mvmInner matrix vec i (List.range N) res).bind fun res1 =>
        mvmOuter N matrix vec is res1

/-- Rust `matrix_vec_multiply<const M, const N, T>(matrix: &[[T; N]; M],
vector: &[T; N]) -> [T; M]`: `result` starts as `[T::default(); M]`
(`T::default()` is the numeric zero) and the nested loops accumulate
`result[i] += matrix[j][i] * vector[j]`. -/
def matrix_vec_multiply [Mul α] [Add α] [Zero α] (M N : ℕ)
    (matrix : List (List α)) (vec : List α) : Option (List α) :=
  mvmOuter N matrix vec (List.range M) (List.replicate M (0 : α))

/-- Modelled from the spec: `result[i] = Σ_{j=0}^{N-1} matrix[i][j] * vector[j]`
(§4.4 of the spec), the standard row-times-vector product, written down from
the spec's words for comparison with `matrix_vec_multiply`. -/
def matrixVecMultiplySpec [Mul α] [Add α] [Zero α] (M N : ℕ)
    (matrix : List (List α)) (vec : List α) : List α :=
  (List.range M).map fun i =>
    ((List.range N).map fun j => (matrix.getD i []).getD j 0 * vec.getD j 0).sum

/-- The value `matrix_vec_multiply` actually accumulates when it completes:
entry `i` is `Σ_{j=0}^{N-1} matrix[j][i] * vector[j]` (the transposed
indexing of the source's inner statement). -/
def mvmFn [Mul α] [Add α] [Zero α] (M N : ℕ)
    (matrix : List (List α)) (vec : List α) : List α :=
  (List.range M).map fun i =>
    ((List.range N).map fun j => (matrix.getD j []).getD i 0 * vec.getD j 0).sum

/-- The `N × N` identity matrix: ones on the diagonal, zeros elsewhere. -/
def identityMatrix [Zero α] [One α] (N : ℕ) : List (List α) :=
  (List.range N).map fun i =>
    (List.range N).map fun j => if i = j then (1 : α) else 0

/-! ### Basic list lemmas used throughout -/

theorem get?_some_of_lt {l : List α} {i : ℕ} (h : i < l.length) :
    ∃ x, l.get? i = some x := by
  cases h2 : l.get? i with
  | none => exact absurd (List.get?_eq_none.mp h2) (not_le.mpr h)
  | some x => exact ⟨x, rfl⟩

theorem lt_of_get?_some {l : List α} {i : ℕ} {x : α} (h : l.get? i = some x) :
    i < l.length := by
  by_contra hlt
  rw [List.get?_eq_none.mpr (not_lt.mp hlt)] at h
  exact Option.noConfusion h

theorem getD_of_get? {l : List α} {i : ℕ} {x : α} (d : α) (h : l.get? i = some x) :
    l.getD i d = x := by
  rw [List.getD_eq_get?, h]
  rfl

theorem get?_replicate_of_lt {n i : ℕ} {a : α} (h : i < n) :
    (List.replicate n a).get? i = some a := by
  induction n generalizing i with
  | zero => exact absurd h (Nat.not_lt_zero i)
  | succ n ih =>
    cases i with
    | zero => rfl
    | succ i => exact ih (Nat.lt_of_succ_lt_succ h)

theorem get?_zip_map (f : α → α → α) :
    ∀ (a b : List α) (i : ℕ) (x y : α), a.get? i = some x → b.get? i = some y →
      ((a.zip b).map fun p => f p.1 p.2).get? i = some (f x y) := by
  intro a
  induction a with
  | nil => intro b i x y hx; exact absurd hx (by simp)
  | cons u a ih =>
    intro b i x y hx hy
    cases b with
    | nil => exact absurd hy (by simp)
    | cons v b =>
      cases i with
      | zero =>
        simp only [List.get?] at hx hy
        injection hx with hx
        injection hy with hy
        subst hx
        subst hy
        simp [List.zip_cons_cons]
      | succ i =>
        simpa [List.zip_cons_cons] using ih b i x y hx hy

theorem sum_map_range_eq [AddCommMonoid α] (f : ℕ → α) (n : ℕ) :
    ((List.range n).map f).sum = ∑ j ∈ Finset.range n, f j := by
  induction n with
  | zero => rfl
  | succ n ih => simp [List.range_succ, Finset.sum_range_succ, ih]

/-! ### Evaluation of the `sub` / `add` / `scale` pipelines -/

theorem length_subFn [Sub α] (a b : List α) :
    (subFn a b).length = min a.length b.length := by
  simp [subFn]

theorem length_addFn [Add α] (a b : List α) :
    (addFn a b).length = min a.length b.length := by
  simp [addFn]

theorem length_scaleFn [Mul α] (v : List α) (k : α) :
    (scaleFn v k).length = v.length := by
  simp [scaleFn]

theorem sub_eq_some [Sub α] {F : ℕ} {a b : List α}
    (ha : a.length = F) (hb : b.length = F) : sub F a b = some (subFn a b) := by
  simp [sub, tryInto, length_subFn, ha, hb]

theorem add_eq_some [Add α] {F : ℕ} {a b : List α}
    (ha : a.length = F) (hb : b.length = F) : add F a b = some (addFn a b) := by
  simp [add, tryInto, length_addFn, ha, hb]

theorem scale_eq_some [Mul α] {F : ℕ} {v : List α} {k : α}
    (hv : v.length = F) : scale F v k = some (scaleFn v k) := by
  simp [scale, tryInto, length_scaleFn, hv]

theorem get?_subFn [Sub α] {a b : List α} {i : ℕ} {x y : α}
    (hx : a.get? i = some x) (hy : b.get? i = some y) :
    (subFn a b).get? i = some (x - y) :=
  get?_zip_map (fun u v => u - v) a b i x y hx hy

theorem get?_addFn [Add α] {a b : List α} {i : ℕ} {x y : α}
    (hx : a.get? i = some x) (hy : b.get? i = some y) :
    (addFn a b).get? i = some (x + y) :=
  get?_zip_map (fun u v => u + v) a b i x y hx hy

theorem get?_scaleFn [Mul α] {v : List α} {k : α} {i : ℕ} {x : α}
    (hx : v.get? i = some x) :
    (scaleFn v k).get? i = some (x * k) := by
  rw [scaleFn, List.get?_map, hx]
  rfl

theorem scaleFn_addFn [CommRing α] (a b : List α) (k : α) :
    scaleFn (addFn a b) k = addFn (scaleFn a k) (scaleFn b k) := by
  induction a generalizing b with
  | nil => simp [scaleFn, addFn]
  | cons u a ih =>
    cases b with
    | nil => simp [scaleFn, addFn]
    | cons v b =>
      simpa [scaleFn, addFn, List.zip_cons_cons, add_mul] using ih b

/-! ### Claim theorems for the element-wise operations -/

/-- C4: for equal-length inputs, `add` returns the vector of element-wise sums
of length `F` and `sub` the vector of element-wise differences of length `F`. -/
theorem C4_add_sub_elementwise [CommRing α] (F : ℕ) (a b : List α)
    (ha : a.length = F) (hb : b.length = F) :
    (∃ r, add F a b = some r ∧ r.length = F ∧
      ∀ i x y, a.get? i = some x → b.get? i = some y → r.get? i = some (x + y)) ∧
    (∃ r, sub F a b = some r ∧ r.length = F ∧
      ∀ i x y, a.get? i = some x → b.get? i = some y → r.get? i = some (x - y)) := by
  constructor
  · exact ⟨addFn a b, add_eq_some ha hb, by simp [length_addFn, ha, hb],
      fun i x y hx hy => get?_addFn hx hy⟩
  · exact ⟨subFn a b, sub_eq_some ha hb, by simp [length_subFn, ha, hb],
      fun i x y hx hy => get?_subFn hx hy⟩

/-- Witness for C4 at `F = 2`, `a = [1, 2]`, `b = [5, 4]` over `ℤ`:
the two doc-test vectors give `add = [6, 6]` and `sub = [-4, -2]`. -/
theorem C4_add_sub_elementwise_witness :
    add 2 [(1 : ℤ), 2] [5, 4] = some [6, 6] ∧
    sub 2 [(1 : ℤ), 2] [5, 4] = some [-4, -2] := by
  obtain ⟨⟨r1, h1, -, -⟩, ⟨r2, h2, -, -⟩⟩ :=
    C4_add_sub_elementwise 2 [(1 : ℤ), 2] [5, 4] (by decide) (by decide)
  have e1 : add 2 [(1 : ℤ), 2] [5, 4] = some [6, 6] := by decide
  have e2 : sub 2 [(1 : ℤ), 2] [5, 4] = some [-4, -2] := by decide
  exact ⟨h1.symm.trans e1 ▸ e1, h2.symm.trans e2 ▸ e2⟩

/-- C5: `scale` returns the vector of element-wise products `v[i] * k` of
length `F`; scaling by `1` is the identity and scaling by `0` gives the
all-zero vector of length `F`. -/
theorem C5_scale [CommRing α] (F : ℕ) (v : List α) (k : α) (hv : v.length = F) :
    (∃ r, scale F v k = some r ∧ r.length = F ∧
      ∀ i x, v.get? i = some x → r.get? i = some (x * k)) ∧
    scale F v 1 = some v ∧
    scale F v 0 = some (List.replicate F 0) := by
  refine ⟨⟨scaleFn v k, scale_eq_some hv, by simp [length_scaleFn, hv],
      fun i x hx => get?_scaleFn hx⟩, ?_, ?_⟩
  · rw [scale_eq_some hv]
    simp [scaleFn]
  · rw [scale_eq_some hv]
    simp [scaleFn, List.map_const', hv]

/-- Witness for C5 at `F = 5`, `v = [1, 2, 3, 4, 5]`, `k = 5` over `ℤ`
(the doc-test input). -/
theorem C5_scale_witness :
    scale 5 [(1 : ℤ), 2, 3, 4, 5] 5 = some [5, 10, 15, 20, 25] ∧
    scale 5 [(1 : ℤ), 2, 3, 4, 5] 1 = some [1, 2, 3, 4, 5] ∧
    scale 5 [(1 : ℤ), 2, 3, 4, 5] 0 = some [0, 0, 0, 0, 0] := by
  obtain ⟨⟨r, h, -, -⟩, h1, h0⟩ :=
    C5_scale 5 [(1 : ℤ), 2, 3, 4, 5] 5 (by decide)
  exact ⟨by decide, h1, h0⟩

/-- C8: scaling distributes over vector addition,
`scale(add(a, b), k) = add(scale(a, k), scale(b, k))`, stated on the
panic-aware results (`Option.bind` chains the dependent calls). -/
theorem C8_scale_add_distrib [CommRing α] (F : ℕ) (a b : List α) (k : α)
    (ha : a.length = F) (hb : b.length = F) :
    (add F a b).bind (fun s => scale F s k) =
      (scale F a k).bind fun x => (scale F b k).bind fun y => add F x y := by
  rw [add_eq_some ha hb, scale_eq_some ha, scale_eq_some hb]
  simp only [Option.some_bind]
  rw [scale_eq_some (by simp [length_addFn, ha, hb]),
    add_eq_some (by simp [length_scaleFn, ha]) (by simp [length_scaleFn, hb]),
    scaleFn_addFn]

/-- Witness for C8 at `F = 2`, `a = [1, 2]`, `b = [5, 4]`, `k = 3` over `ℤ`. -/
theorem C8_scale_add_distrib_witness :
    (add 2 [(1 : ℤ), 2] [5, 4]).bind (fun s => scale 2 s 3) =
      (scale 2 [(1 : ℤ), 2] 3).bind fun x =>
        (scale 2 [5, 4] 3).bind fun y => add 2 x y :=
  C8_scale_add_distrib 2 [(1 : ℤ), 2] [5, 4] 3 (by decide) (by decide)

/-- C10: for well-typed (length-respecting) inputs the `try_into().unwrap()`
conversion in `sub`, `add` and `scale` always succeeds — none of the three
functions panics. -/
theorem C10_no_panic [CommRing α] (F : ℕ) (a b v : List α) (k : α)
    (ha : a.length = F) (hb : b.length = F) (hv : v.length = F) :
    (∃ r, sub F a b = some r) ∧ (∃ r, add F a b = some r) ∧
    (∃ r, scale F v k = some r) :=
  ⟨⟨subFn a b, sub_eq_some ha hb⟩, ⟨addFn a b, add_eq_some ha hb⟩,
    ⟨scaleFn v k, scale_eq_some hv⟩⟩

/-- Witness for C10 at `F = 2` over `ℤ`: all three calls return `some`. -/
theorem C10_no_panic_witness :
    (∃ r, sub 2 [(1 : ℤ), 2] [5, 4] = some r) ∧
    (∃ r, add 2 [(1 : ℤ), 2] [5, 4] = some r) ∧
    (∃ r, scale 2 [(7 : ℤ), 9] 3 = some r) :=
  C10_no_panic 2 [(1 : ℤ), 2] [5, 4] [7, 9] 3 (by decide) (by decide) (by decide)

/-! ### The inner loop of `matrix_vec_multiply` -/

theorem get?_eq_some_getD {l : List α} {i : ℕ} (d : α) (h : i < l.length) :
    l.get? i = some (l.getD i d) := by
  obtain ⟨x, hx⟩ := get?_some_of_lt h
  rw [hx, getD_of_get? d hx]

theorem mvmInner_length [Mul α] [Add α] {matrix : List (List α)} {vec : List α}
    {i : ℕ} : ∀ {js : List ℕ} {res res2 : List α},
      mvmInner matrix vec i js res = some res2 → res2.length = res.length := by
  intro js
  induction js with
  | nil =>
    intro res res2 h
    simp only [mvmInner] at h
    injection h with h
    rw [← h]
  | cons j js ih =>
    intro res res2 h
    simp only [mvmInner, Option.bind_eq_some] at h
    obtain ⟨row, -, x, -, v, -, r, -, hrec⟩ := h
    rw [ih hrec, List.length_set]

theorem mvmInner_some [CommRing α] {matrix : List (List α)} {vec : List α} {i : ℕ} :
    ∀ (js : List ℕ) (res : List α) (r : α),
      (∀ j ∈ js, ∃ row x v, matrix.get? j = some row ∧ row.get? i = some x ∧
        vec.get? j = some v) →
      res.get? i = some r →
      ∃ res2, mvmInner matrix vec i js res = some res2 ∧
        res2.length = res.length ∧
        res2.get? i = some (r +
          ((js.map fun j => (matrix.getD j []).getD i 0 * vec.getD j 0).sum)) ∧
        ∀ k, k ≠ i → res2.get? k = res.get? k := by
  intro js
  induction js with
  | nil =>
    intro res r hall hr
    exact ⟨res, rfl, rfl, by simpa using hr, fun k _ => rfl⟩
  | cons j js ih =>
    intro res r hall hr
    obtain ⟨row, x, v, hrow, hx, hv⟩ := hall j (List.mem_cons_self j js)
    have hset : (res.set i (r + x * v)).get? i = some (r + x * v) := by
      rw [List.get?_set, if_pos rfl, hr]
      rfl
    obtain ⟨res2, hrec, hlen, hval, hoth⟩ :=
      ih (res.set i (r + x * v)) (r + x * v)
        (fun j2 hj2 => hall j2 (List.mem_cons_of_mem j hj2)) hset
    refine ⟨res2, ?_, ?_, ?_, ?_⟩
    · simp only [mvmInner, hrow, hx, hv, hr, Option.some_bind]
      exact hrec
    · rw [hlen, List.length_set]
    · rw [hval, List.map_cons, List.sum_cons, getD_of_get? ([] : List α) hrow,
        getD_of_get? (0 : α) hx, getD_of_get? (0 : α) hv, add_assoc]
    · intro k hk
      rw [hoth k hk, List.get?_set, if_neg (Ne.symm hk)]

theorem mvmInner_none_of_matrix_oob [Mul α] [Add α] {matrix : List (List α)}
    {vec : List α} {i : ℕ} : ∀ {js : List ℕ} (res : List α),
      (∃ j ∈ js, matrix.get? j = none) → mvmInner matrix vec i js res = none := by
  intro js
  induction js with
  | nil => intro res h; simp at h
  | cons j js ih =>
    intro res h
    rcases h with ⟨j0, hj0mem, hj0⟩
    rcases List.mem_cons.mp hj0mem with h1 | h1
    · subst h1
      simp only [mvmInner]
      rw [hj0]
      rfl
    · cases hm : matrix.get? j with
      | none =>
        simp only [mvmInner]
        rw [hm]
        rfl
      | some row =>
        cases hx : row.get? i with
        | none =>
          simp only [mvmInner]
          rw [hm, Option.some_bind, hx]
          rfl
        | some x =>
          cases hv : vec.get? j with
          | none =>
            simp only [mvmInner]
            rw [hm, Option.some_bind, hx, Option.some_bind, hv]
            rfl
          | some v =>
            cases hr : res.get? i with
            | none =>
              simp only [mvmInner]
              rw [hm, Option.some_bind, hx, Option.some_bind, hv, Option.some_bind, hr]
              rfl
            | some r =>
              simp only [mvmInner]
              rw [hm, Option.some_bind, hx, Option.some_bind, hv, Option.some_bind,
                hr, Option.some_bind]
              exact ih _ ⟨j0, h1, hj0⟩

theorem mvmInner_none_of_row_oob [Mul α] [Add α] {matrix : List (List α)}
    {vec : List α} {i j : ℕ} {row : List α} (js : List ℕ) (res : List α)
    (h1 : matrix.get? j = some row) (h2 : row.get? i = none) :
    mvmInner matrix vec i (j :: js) res = none := by
  simp only [mvmInner]
  rw [h1, Option.some_bind, h2]
  rfl

/-! ### The outer loop of `matrix_vec_multiply` -/

theorem mvmOuter_length [Mul α] [Add α] {N : ℕ} {matrix : List (List α)}
    {vec : List α} : ∀ {is : List ℕ} {res res2 : List α},
      mvmOuter N matrix vec is res = some res2 → res2.length = res.length := by
  intro is
  induction is with
  | nil =>
    intro res res2 h
    simp only [mvmOuter] at h
    injection h with h
    rw [← h]
  | cons i is ih =>
    intro res res2 h
    simp only [mvmOuter, Option.bind_eq_some] at h
    obtain ⟨res1, h1, h2⟩ := h
    rw [ih h2, mvmInner_length h1]

theorem mvmOuter_append [Mul α] [Add α] (N : ℕ) (matrix : List (List α))
    (vec : List α) : ∀ (l1 l2 : List ℕ) (res : List α),
      mvmOuter N matrix vec (l1 ++ l2) res =
        (mvmOuter N matrix vec l1 res).bind fun r => mvmOuter N matrix vec l2 r := by
  intro l1
  induction l1 with
  | nil => intro l2 res; simp [mvmOuter]
  | cons i l1 ih =>
    intro l2 res
    simp only [List.cons_append, mvmOuter]
    cases h : mvmInner matrix vec i (List.range N) res <;> simp [h, ih]

theorem mvmOuter_range_zero [Mul α] [Add α] (matrix : List (List α)) (vec : List α) :
    ∀ (is : List ℕ) (res : List α), mvmOuter 0 matrix vec is res = some res := by
  intro is
  induction is with
  | nil => intro res; rfl
  | cons i is ih =>
    intro res
    simp only [mvmOuter, List.range_zero, mvmInner, Option.some_bind]
    exact ih res

theorem mvmOuter_some [CommRing α] {N : ℕ} {matrix : List (List α)} {vec : List α}
    (hmat : ∀ j, j < N → ∃ row, matrix.get? j = some row ∧ row.length = N)
    (hvec : vec.length = N) :
    ∀ (is : List ℕ) (res : List α), is.Nodup → (∀ i ∈ is, i < N) →
      (∀ i ∈ is, i < res.length) →
      ∃ res2, mvmOuter N matrix vec is res = some res2 ∧
        res2.length = res.length ∧
        (∀ i ∈ is, res2.get? i = some (res.getD i 0 +
          ((List.range N).map fun j => (matrix.getD j []).getD i 0 * vec.getD j 0).sum)) ∧
        ∀ k, k ∉ is → res2.get? k = res.get? k := by
  intro is
  induction is with
  | nil =>
    intro res _ _ _
    exact ⟨res, rfl, rfl, by simp, fun k _ => rfl⟩
  | cons i is ih =>
    intro res hnd hlt hres
    obtain ⟨hi_nin, hnd2⟩ := List.nodup_cons.mp hnd
    have hiN : i < N := hlt i (List.mem_cons_self i is)
    have hinner_hyp : ∀ j ∈ List.range N, ∃ row x v, matrix.get? j = some row ∧
        row.get? i = some x ∧ vec.get? j = some v := by
      intro j hj
      obtain ⟨row, hrowj, hrowlen⟩ := hmat j (List.mem_range.mp hj)
      obtain ⟨x, hx⟩ := get?_some_of_lt (l := row) (by rw [hrowlen]; exact hiN)
      obtain ⟨v, hv⟩ := get?_some_of_lt (l := vec) (by rw [hvec]; exact List.mem_range.mp hj)
      exact ⟨row, x, v, hrowj, hx, hv⟩
    have hresi : res.get? i = some (res.getD i 0) :=
      get?_eq_some_getD 0 (hres i (List.mem_cons_self i is))
    obtain ⟨res1, hin, hlen1, hval1, hoth1⟩ :=
      mvmInner_some (List.range N) res (res.getD i 0) hinner_hyp hresi
    obtain ⟨res2, hout, hlen2, hval2, hoth2⟩ :=
      ih res1 hnd2 (fun i2 h2 => hlt i2 (List.mem_cons_of_mem i h2))
        (fun i2 h2 => by rw [hlen1]; exact hres i2 (List.mem_cons_of_mem i h2))
    refine ⟨res2, ?_, ?_, ?_, ?_⟩
    · simp only [mvmOuter, hin, Option.some_bind]
      exact hout
    · rw [hlen2, hlen1]
    · intro i2 hi2
      rcases List.mem_cons.mp hi2 with h2 | h2
      · subst h2
        rw [hoth2 i2 hi_nin, hval1]
      · have hne : i2 ≠ i := fun he => hi_nin (he ▸ h2)
        have hsame : res1.get? i2 = res.get? i2 := hoth1 i2 hne
        rw [hval2 i2 h2, List.getD_eq_get?, hsame, ← List.getD_eq_get?]
    · intro k hk
      have hk1 : k ≠ i := fun he => hk (he ▸ List.mem_cons_self i is)
      have hk2 : k ∉ is := fun he => hk (List.mem_cons_of_mem i he)
      rw [hoth2 k hk2, hoth1 k hk1]

/-! ### Global behaviour of `matrix_vec_multiply` -/

theorem rows_exist_of_length {matrix : List (List α)} {M N : ℕ}
    (hlen : matrix.length = M) (hrow : ∀ row ∈ matrix, row.length = N)
    {j : ℕ} (hj : j < M) : ∃ row, matrix.get? j = some row ∧ row.length = N := by
  obtain ⟨row, hr⟩ := get?_some_of_lt (l := matrix) (by rw [hlen]; exact hj)
  exact ⟨row, hr, hrow row (List.get?_mem hr)⟩

/-- When the matrix is square (`M = N`) every index stays in bounds and
`matrix_vec_multiply` returns exactly `mvmFn`: entry `i` is
`Σ_j matrix[j][i] * vector[j]`. -/
theorem matrix_vec_multiply_square [CommRing α] {N : ℕ} {matrix : List (List α)}
    {vec : List α} (hlen : matrix.length = N)
    (hrow : ∀ row ∈ matrix, row.length = N) (hvec : vec.length = N) :
    matrix_vec_multiply N N matrix vec = some (mvmFn N N matrix vec) := by
  obtain ⟨res2, heq, hlen2, hval, hoth⟩ :=
    mvmOuter_some (fun j hj => rows_exist_of_length hlen hrow hj) hvec (List.range N)
      (List.replicate N 0) (List.nodup_range N)
      (fun i h => List.mem_range.mp h)
      (fun i h => by rw [List.length_replicate]; exact List.mem_range.mp h)
  rw [matrix_vec_multiply, heq]
  congr 1
  apply List.ext
  intro k
  by_cases hk : k < N
  · rw [hval k (List.mem_range.mpr hk), mvmFn, List.get?_map, List.get?_range hk,
      getD_of_get? (0 : α) (get?_replicate_of_lt hk), zero_add]
    rfl
  · rw [hoth k (fun hmem => hk (List.mem_range.mp hmem)),
      List.get?_eq_none.mpr (by rw [List.length_replicate]; exact not_lt.mp hk),
      List.get?_eq_none.mpr
        (by rw [mvmFn, List.length_map, List.length_range]; exact not_lt.mp hk)]

/-- When the matrix is non-square with at least one row and one column, the
transposed indexing `matrix[j][i]` steps out of bounds and the function
panics. -/
theorem matrix_vec_multiply_nonsquare_none [CommRing α] {M N : ℕ}
    {matrix : List (List α)} {vec : List α} (hM : 1 ≤ M) (hN : 1 ≤ N) (hMN : M ≠ N)
    (hlen : matrix.length = M) (hrow : ∀ row ∈ matrix, row.length = N)
    (hvec : vec.length = N) : matrix_vec_multiply M N matrix vec = none := by
  rcases Nat.lt_or_ge M N with h | h
  · -- M < N: already the first inner pass tries `matrix[M]` and panics
    have hnone : matrix.get? M = none := List.get?_eq_none.mpr (le_of_eq hlen)
    have hinner : ∀ res : List α, mvmInner matrix vec 0 (List.range N) res = none :=
      fun res => mvmInner_none_of_matrix_oob res ⟨M, List.mem_range.mpr h, hnone⟩
    obtain ⟨m, rfl⟩ : ∃ m, M = m + 1 := ⟨M - 1, (Nat.succ_pred_eq_of_pos hM).symm⟩
    rw [matrix_vec_multiply, List.range_succ_eq_map]
    simp only [mvmOuter]
    rw [hinner]
    rfl
  · -- N < M: the passes for i < N succeed, then `matrix[0][N]` panics
    have hlt : N < M := lt_of_le_of_ne h (Ne.symm hMN)
    obtain ⟨k, hk⟩ : ∃ k, M = N + k := ⟨M - N, (Nat.add_sub_cancel' h).symm⟩
    have hkpos : 1 ≤ k := by
      rcases Nat.eq_zero_or_pos k with h0 | h0
      · exact absurd (by omega : M = N) hMN
      · exact h0
    obtain ⟨k1, hk1⟩ : ∃ k1, k = k1 + 1 := ⟨k - 1, (Nat.succ_pred_eq_of_pos hkpos).symm⟩
    obtain ⟨res1, heq, hlen1, -, -⟩ :=
      mvmOuter_some (fun j hj => rows_exist_of_length hlen hrow (lt_trans hj hlt))
        hvec (List.range N) (List.replicate M 0) (List.nodup_range N)
        (fun i hi => List.mem_range.mp hi)
        (fun i hi => by
          rw [List.length_replicate]
          exact lt_trans (List.mem_range.mp hi) hlt)
    have hrange : List.range M = List.range N ++ (List.range k).map fun x => N + x := by
      rw [hk, List.range_add]
    rw [matrix_vec_multiply, hrange, mvmOuter_append, heq,
      Option.some_bind, hk1, List.range_succ_eq_map, List.map_cons]
    obtain ⟨row0, hrow0, hrow0len⟩ :=
      rows_exist_of_length hlen hrow (lt_of_lt_of_le hN (hk ▸ Nat.le_add_right N k))
    have hoob : row0.get? (N + 0) = none :=
      List.get?_eq_none.mpr (by rw [hrow0len]; exact Nat.le_add_right N 0)
    obtain ⟨n1, hn1⟩ : ∃ n1, N = n1 + 1 := ⟨N - 1, (Nat.succ_pred_eq_of_pos hN).symm⟩
    have hr : List.range N = 0 :: (List.range n1).map Nat.succ := by
      rw [hn1, List.range_succ_eq_map]
    simp only [mvmOuter]
    rw [hr, mvmInner_none_of_row_oob _ _ hrow0 hoob]
    rfl

/-! ### The identity matrix and linearity of `mvmFn` -/

theorem identityMatrix_get? [Zero α] [One α] {N j : ℕ} (hj : j < N) :
    (identityMatrix N : List (List α)).get? j =
      some ((List.range N).map fun j2 => if j = j2 then (1 : α) else 0) := by
  rw [identityMatrix, List.get?_map, List.get?_range hj]
  rfl

theorem identity_row_entry [CommRing α] {N j k : ℕ} (hj : j < N) (hk : k < N) :
    ((identityMatrix N : List (List α)).getD j []).getD k 0
      = if j = k then 1 else 0 := by
  rw [getD_of_get? ([] : List α) (identityMatrix_get? hj)]
  have h2 : ((List.range N).map fun j2 => if j = j2 then (1 : α) else 0).get? k
      = some (if j = k then 1 else 0) := by
    rw [List.get?_map, List.get?_range hk]
    rfl
  rw [getD_of_get? (0 : α) h2]

theorem mvmFn_identity [CommRing α] {N : ℕ} {v : List α} (hv : v.length = N) :
    mvmFn N N (identityMatrix N) v = v := by
  apply List.ext
  intro k
  by_cases hk : k < N
  · rw [mvmFn, List.get?_map, List.get?_range hk]
    have hdot : ((List.range N).map fun j =>
        ((identityMatrix N : List (List α)).getD j []).getD k 0 * v.getD j 0).sum
        = v.getD k 0 := by
      rw [sum_map_range_eq]
      have hcong : ∀ j ∈ Finset.range N,
          ((identityMatrix N : List (List α)).getD j []).getD k 0 * v.getD j 0
            = if j = k then v.getD j 0 else 0 := by
        intro j hj
        rw [identity_row_entry (Finset.mem_range.mp hj) hk]
        by_cases h : j = k
        · rw [if_pos h, if_pos h, one_mul]
        · rw [if_neg h, if_neg h, zero_mul]
      rw [Finset.sum_congr rfl hcong, Finset.sum_ite_eq',
        if_pos (Finset.mem_range.mpr hk)]
    rw [get?_eq_some_getD (0 : α) (by rw [hv]; exact hk)]
    simp only [Option.map_some']
    rw [hdot]
  · rw [List.get?_eq_none.mpr
        (by rw [mvmFn, List.length_map, List.length_range]; exact not_lt.mp hk),
      List.get?_eq_none.mpr (by rw [hv]; exact not_lt.mp hk)]

theorem addFn_map_map [Add α] (f g : ℕ → α) (l : List ℕ) :
    addFn (l.map f) (l.map g) = l.map fun i => f i + g i := by
  rw [addFn, List.zip_map', List.map_map]
  rfl

theorem getD_addFn [Add α] [Zero α] {v1 v2 : List α} {j : ℕ}
    (h1 : j < v1.length) (h2 : j < v2.length) :
    (addFn v1 v2).getD j 0 = v1.getD j 0 + v2.getD j 0 :=
  getD_of_get? 0 (get?_addFn (get?_eq_some_getD 0 h1) (get?_eq_some_getD 0 h2))

theorem mvmFn_addFn [CommRing α] {M N : ℕ} (matrix : List (List α)) {v1 v2 : List α}
    (h1 : v1.length = N) (h2 : v2.length = N) :
    mvmFn M N matrix (addFn v1 v2)
      = addFn (mvmFn M N matrix v1) (mvmFn M N matrix v2) := by
  rw [mvmFn, mvmFn, mvmFn, addFn_map_map]
  apply List.map_congr_left
  intro i _
  rw [sum_map_range_eq, sum_map_range_eq, sum_map_range_eq, ← Finset.sum_add_distrib]
  apply Finset.sum_congr rfl
  intro j hj
  rw [getD_addFn (by rw [h1]; exact Finset.mem_range.mp hj)
    (by rw [h2]; exact Finset.mem_range.mp hj), mul_add]

theorem addFn_replicate_zero [AddZeroClass α] (n : ℕ) :
    addFn (List.replicate n (0 : α)) (List.replicate n 0) = List.replicate n 0 := by
  rw [addFn, List.zip_replicate, List.map_replicate]
  simp

theorem matrix_vec_multiply_zero_rows [Mul α] [Add α] [Zero α] (N : ℕ)
    (matrix : List (List α)) (vec : List α) :
    matrix_vec_multiply 0 N matrix vec = some [] := by
  rw [matrix_vec_multiply, List.range_zero, List.replicate_zero]
  rfl

theorem matrix_vec_multiply_zero_cols [Mul α] [Add α] [Zero α] (M : ℕ)
    (matrix : List (List α)) (vec : List α) :
    matrix_vec_multiply M 0 matrix vec = some (List.replicate M 0) := by
  rw [matrix_vec_multiply]
  exact mvmOuter_range_zero matrix vec (List.range M) (List.replicate M 0)

/-! ### Claim theorems for `matrix_vec_multiply` -/

/-- C2: on a non-square well-typed input (`M` rows of length `N`, vector of
length `N`, both dimensions at least 1) the transposed indexing goes out of
bounds and `matrix_vec_multiply` panics; it completes exactly when `M = N`. -/
theorem C2_nonsquare_out_of_bounds [CommRing α] (M N : ℕ) (matrix : List (List α))
    (vec : List α) (hM : 1 ≤ M) (hN : 1 ≤ N)
    (hlen : matrix.length = M) (hrow : ∀ row ∈ matrix, row.length = N)
    (hvec : vec.length = N) :
    (M ≠ N → matrix_vec_multiply M N matrix vec = none) ∧
    (M = N → ∃ r, matrix_vec_multiply M N matrix vec = some r) := by
  constructor
  · intro hMN
    exact matrix_vec_multiply_nonsquare_none hM hN hMN hlen hrow hvec
  · intro hMN
    subst hMN
    exact ⟨mvmFn M M matrix vec, matrix_vec_multiply_square hlen hrow hvec⟩

/-- Witness for C2: a 1×2 matrix panics (`none`), applying the theorem at
`M = 1`, `N = 2` over `ℤ`. -/
theorem C2_nonsquare_out_of_bounds_witness :
    matrix_vec_multiply 1 2 [[(1 : ℤ), 2]] [5, 7] = none :=
  (C2_nonsquare_out_of_bounds 1 2 [[(1 : ℤ), 2]] [5, 7] (by decide) (by decide)
    (by decide) (by decide) (by decide)).1 (by decide)

/-- C6: multiplying the `N × N` identity matrix by any vector of length `N`
returns the vector unchanged. -/
theorem C6_identity_matrix [CommRing α] (N : ℕ) (v : List α) (hv : v.length = N) :
    matrix_vec_multiply N N (identityMatrix N) v = some v := by
  have hlen : (identityMatrix N : List (List α)).length = N := by
    rw [identityMatrix, List.length_map, List.length_range]
  have hrow : ∀ row ∈ (identityMatrix N : List (List α)), row.length = N := by
    intro row hmem
    rw [identityMatrix] at hmem
    obtain ⟨i, -, rfl⟩ := List.mem_map.mp hmem
    rw [List.length_map, List.length_range]
  rw [matrix_vec_multiply_square hlen hrow hv, mvmFn_identity hv]

/-- Witness for C6 at `N = 2`, `v = [3, 4]` over `ℤ`. -/
theorem C6_identity_matrix_witness :
    matrix_vec_multiply 2 2 (identityMatrix 2) [(3 : ℤ), 4] = some [3, 4] :=
  C6_identity_matrix 2 [(3 : ℤ), 4] (by decide)

/-- C7: matrix-vector linearity
`matrix_vec_multiply(m, add(v1, v2)) = add(matrix_vec_multiply(m, v1),
matrix_vec_multiply(m, v2))`, stated on the panic-aware results
(`Option.bind` chains the dependent calls); both sides agree in every case,
panicking together on non-square matrices. -/
theorem C7_matrix_vec_linearity [CommRing α] (M N : ℕ) (matrix : List (List α))
    (v1 v2 : List α) (hlen : matrix.length = M)
    (hrow : ∀ row ∈ matrix, row.length = N)
    (h1 : v1.length = N) (h2 : v2.length = N) :
    (add N v1 v2).bind (fun s => matrix_vec_multiply M N matrix s) =
      (matrix_vec_multiply M N matrix v1).bind fun r1 =>
        (matrix_vec_multiply M N matrix v2).bind fun r2 => add M r1 r2 := by
  have hsumlen : (addFn v1 v2).length = N := by
    rw [length_addFn, h1, h2, min_self]
  rcases Nat.eq_zero_or_pos M with hM0 | hM
  · subst hM0
    rw [add_eq_some h1 h2]
    simp only [Option.some_bind]
    rw [matrix_vec_multiply_zero_rows, matrix_vec_multiply_zero_rows,
      matrix_vec_multiply_zero_rows]
    simp only [Option.some_bind]
    rfl
  rcases Nat.eq_zero_or_pos N with hN0 | hN
  · subst hN0
    rw [add_eq_some h1 h2]
    simp only [Option.some_bind]
    rw [matrix_vec_multiply_zero_cols, matrix_vec_multiply_zero_cols,
      matrix_vec_multiply_zero_cols]
    simp only [Option.some_bind]
    rw [add, addFn_replicate_zero]
    simp [tryInto]
  by_cases hMN : M = N
  · subst hMN
    rw [add_eq_some h1 h2]
    simp only [Option.some_bind]
    rw [matrix_vec_multiply_square hlen hrow hsumlen,
      matrix_vec_multiply_square hlen hrow h1,
      matrix_vec_multiply_square hlen hrow h2]
    simp only [Option.some_bind]
    rw [mvmFn_addFn matrix h1 h2,
      add_eq_some (by rw [mvmFn, List.length_map, List.length_range])
        (by rw [mvmFn, List.length_map, List.length_range])]
  · rw [add_eq_some h1 h2]
    simp only [Option.some_bind]
    rw [matrix_vec_multiply_nonsquare_none hM hN hMN hlen hrow hsumlen,
      matrix_vec_multiply_nonsquare_none hM hN hMN hlen hrow h1]
    rfl

/-- Witness for C7 at `M = N = 1`, `matrix = [[2]]`, `v1 = [3]`, `v2 = [4]`
over `ℤ`. -/
theorem C7_matrix_vec_linearity_witness :
    (add 1 [(3 : ℤ)] [4]).bind (fun s => matrix_vec_multiply 1 1 [[(2 : ℤ)]] s) =
      (matrix_vec_multiply 1 1 [[(2 : ℤ)]] [3]).bind fun r1 =>
        (matrix_vec_multiply 1 1 [[(2 : ℤ)]] [4]).bind fun r2 => add 1 r1 r2 :=
  C7_matrix_vec_linearity 1 1 [[(2 : ℤ)]] [3] [4] (by decide) (by decide)
    (by decide) (by decide)

/-- C9: dimension mismatches are ruled out by the const-generic types, embedded
here as the length hypotheses; on every well-typed input `add` and `sub`
return the complete element-wise result of length `F` (never truncated or
padded), and any vector `matrix_vec_multiply` returns has the full declared
length `M`. -/
theorem C9_no_partial_results [CommRing α] (F M N : ℕ) (a b : List α)
    (matrix : List (List α)) (vec : List α)
    (ha : a.length = F) (hb : b.length = F) :
    (∃ r, add F a b = some r ∧ r.length = F ∧
      ∀ i x y, a.get? i = some x → b.get? i = some y → r.get? i = some (x + y)) ∧
    (∃ r, sub F a b = some r ∧ r.length = F ∧
      ∀ i x y, a.get? i = some x → b.get? i = some y → r.get? i = some (x - y)) ∧
    (∀ r, matrix_vec_multiply M N matrix vec = some r → r.length = M) := by
  refine ⟨⟨addFn a b, add_eq_some ha hb, by simp [length_addFn, ha, hb],
      fun i x y hx hy => get?_addFn hx hy⟩,
    ⟨subFn a b, sub_eq_some ha hb, by simp [length_subFn, ha, hb],
      fun i x y hx hy => get?_subFn hx hy⟩, ?_⟩
  intro r hr
  rw [matrix_vec_multiply] at hr
  rw [mvmOuter_length hr, List.length_replicate]

/-- Witness for C9 at `F = M = N = 2` over `ℤ`: concrete full-length results,
with the matrix-length conjunct instantiated at the doc-test product. -/
theorem C9_no_partial_results_witness :
    add 2 [(1 : ℤ), 2] [3, 4] = some [4, 6] ∧
    sub 2 [(1 : ℤ), 2] [3, 4] = some [-2, -2] ∧
    ([-16, 38] : List ℤ).length = 2 := by
  obtain ⟨-, -, hlen⟩ :=
    C9_no_partial_results 2 2 2 [(1 : ℤ), 2] [3, 4] [[(1 : ℤ), 2], [-3, 4]] [5, 7]
      (by decide) (by decide)
  exact ⟨by decide, by decide, hlen [-16, 38] (by decide)⟩

/-! ### Concrete matrix-vector evaluations -/

/-- C3: the doc-test input: `matrix_vec_multiply([[1,2],[-3,4]], [5,7])`
evaluates to `[-16, 38]`, as the spec's concrete scenario 4 states. -/
theorem C3_concrete_matrix_vec_multiply :
    matrix_vec_multiply 2 2 [[(1 : ℤ), 2], [-3, 4]] [5, 7] = some [-16, 38] := by
  decide

/-- C1: the code does not implement the spec's contract
`result[i] = Σ_{j} matrix[i][j] * vector[j]`.  On the spec's own example the
accumulation statement `result[i] += matrix[j][i] * vector[j]` (indices
transposed) produces `[-16, 38]`, while the contract formula gives
`[19, 13]`. -/
theorem C1_matrix_vec_multiply_transposed :
    matrix_vec_multiply 2 2 [[(1 : ℤ), 2], [-3, 4]] [5, 7] = some [-16, 38] ∧
    matrixVecMultiplySpec 2 2 [[(1 : ℤ), 2], [-3, 4]] [5, 7] = [19, 13] ∧
    ([-16, 38] : List ℤ) ≠ [19, 13] := by
  refine ⟨by decide, by decide, by decide⟩

end VectorOperations
